import Mathlib

/-!
Verification development for the streaming chat-to-speech pipeline
(`backend/src/main.py`).  Strings from the Python source are modelled as
`List Char`; Python integers as `Int`; Python `None`-able values as `Option`.
The pure components embedded here are the sentence-safe chunker
(`text_chunker`), the word-timing reconstructor
(`calculate_word_start_times`), and the request-validation skeleton of the
`chat` endpoint.
-/

/-- The splitter characters used by `text_chunker`
(`splitters = (".", ",", "?", "!", ";", ":", "—", "-", "(", ")", "[", "]", "}", " ")`). -/
def splitters : List Char :=
  ['.', ',', '?', '!', ';', ':', '—', '-', '(', ')', '[', ']', '}', ' ']

/-- Python `buffer.endswith(splitters)`: true iff the string is non-empty and
its last character is a splitter (every splitter is a single character). -/
def endsWithSplitter (s : List Char) : Bool :=
  match s.getLast? with
  | some c => splitters.contains c
  | none => false

/-- Python `text.startswith(splitters)`: true iff the string is non-empty and
its first character is a splitter. -/
def startsWithSplitter (s : List Char) : Bool :=
  match s with
  | [] => false
  | c :: _ => splitters.contains c

/-- The loop body of `text_chunker`, with the mutable `buffer` made explicit.
For each fragment: if the buffer ends with a splitter, emit `buffer + " "` and
restart the buffer at the fragment; else if the fragment starts with a
splitter, emit `buffer + fragment[0] + " "` and keep `fragment[1:]` as the
buffer; else append the fragment to the buffer.  On exhaustion a non-empty
buffer is emitted as `buffer + " "`. -/
def textChunkerAux (buffer : List Char) : List (List Char) → List (List Char)
  | [] => if buffer.isEmpty then [] else [buffer ++ [' ']]
  | text :: rest =>
    if endsWithSplitter buffer then
      (buffer ++ [' ']) :: textChunkerAux text rest
    else
      match text with
      | c :: cs =>
        if splitters.contains c then
          (buffer ++ [c, ' ']) :: textChunkerAux cs rest
        else
          textChunkerAux (buffer ++ (c :: cs)) rest
      | [] => textChunkerAux buffer rest

/-- `text_chunker`: re-batches a finite sequence of text fragments into
sentence-safe chunks, starting from an empty buffer. -/
def text_chunker (fragments : List (List Char)) : List (List Char) :=
  textChunkerAux [] fragments

/-- An alignment record received from the TTS service: `chars`,
`charStartTimesMs`, and the optional `charDurationsMs`. -/
structure AlignmentChunk where
  chars : List Char
  charStartTimesMs : List Int
  charDurationsMs : Option (List Int)
deriving DecidableEq, Repr

/-- The word-boundary scan loop of `calculate_word_start_times`, with the
mutable `word` buffer and `word_start_time` made explicit.  Spaces close out a
non-empty word; a character joining an empty word records its (adjusted) start
time; a trailing non-empty word is closed out at the end. -/
def wordScan : List (Char × Int) → List Char → Option Int →
    List (List Char) × List (Option Int)
  | [], word, word_start_time =>
    if word.isEmpty then ([], []) else ([word], [word_start_time])
  | (char, time) :: rest, word, word_start_time =>
    if char = ' ' then
      if word.isEmpty then
        wordScan rest word word_start_time
      else
        let tail := wordScan rest [] none
        (word :: tail.1, word_start_time :: tail.2)
    else
      if word.isEmpty then
        wordScan rest [char] (some time)
      else
        wordScan rest (word ++ [char]) word_start_time

/-- The fallback duration of `calculate_word_start_times` when no (non-empty)
`charDurationsMs` is available: `adjusted[-1] - adjusted[0] + 100` when the
adjusted start times are non-empty, else `0`. -/
def fallbackDuration (adjusted : List Int) : Int :=
  if adjusted.isEmpty then 0
  else adjusted.getLast?.getD 0 - adjusted.head?.getD 0 + 100

/-- The total-duration computation of `calculate_word_start_times`:
`'charDurationsMs' in alignment_chunk and alignment_chunk['charDurationsMs']`
(present and non-empty) selects the sum of the durations, otherwise the
fallback applies. -/
def totalDuration (charDurationsMs : Option (List Int)) (adjusted : List Int) : Int :=
  match charDurationsMs with
  | some ds => if ds.isEmpty then fallbackDuration adjusted else ds.sum
  | none => fallbackDuration adjusted

/-- `calculate_word_start_times`: offsets the character start times by the
cumulative run time, zips them with the characters (Python `zip` truncates to
the shorter list), scans out words and their start times, and returns the
cumulative run time advanced by the chunk's total duration. -/
def calculate_word_start_times (alignment_chunk : AlignmentChunk)
    (cumulative_run_time : Int) :
    List (List Char) × List (Option Int) × Int :=
  let adjusted_char_start_times :=
    alignment_chunk.charStartTimesMs.map (fun time => time + cumulative_run_time)
  let zipped_chars_times := alignment_chunk.chars.zip adjusted_char_start_times
  let scanned := wordScan zipped_chars_times [] none
  let total_duration := totalDuration alignment_chunk.charDurationsMs adjusted_char_start_times
  (scanned.1, scanned.2, cumulative_run_time + total_duration)

/-- Removing the single trailing space of a chunk (every emitted chunk ends in
the space the chunker appended, so this drops exactly that space). -/
def stripTrailingSpace (s : List Char) : List Char :=
  if s.getLast? = some ' ' then s.dropLast else s

/-- Modelled on the amended spec sentence: if charDurationsMs is present and
non-empty its sum is the chunk duration; otherwise, if there is at least one
adjusted character start time, the duration is last adjusted start time minus
first adjusted start time plus 100; otherwise 0. -/
def claimedChunkDuration (a : AlignmentChunk) (cum : Int) : Int :=
  let adjusted := a.charStartTimesMs.map (fun t => t + cum)
  match a.charDurationsMs with
  | some ds =>
    if ds ≠ [] then ds.sum
    else if adjusted ≠ [] then adjusted.getLast?.getD 0 - adjusted.head?.getD 0 + 100 else 0
  | none =>
    if adjusted ≠ [] then adjusted.getLast?.getD 0 - adjusted.head?.getD 0 + 100 else 0

/-- Validity of an alignment record as the spec assumes it: all duration
entries non-negative and character start times non-decreasing. -/
def validAlignment (a : AlignmentChunk) : Prop :=
  (∀ d ∈ a.charDurationsMs.getD [], 0 ≤ d) ∧
    a.charStartTimesMs.Pairwise (fun x y => x ≤ y)

instance (a : AlignmentChunk) : Decidable (validAlignment a) := by
  unfold validAlignment
  infer_instance

/-- The word scan expressed as a single list of (word, start time) pairs; the
same loop as `wordScan`, kept in lock-step for the proof below. -/
def wordScanPairs : List (Char × Int) → List Char → Option Int →
    List (List Char × Option Int)
  | [], word, word_start_time =>
    if word.isEmpty then [] else [(word, word_start_time)]
  | (char, time) :: rest, word, word_start_time =>
    if char = ' ' then
      if word.isEmpty then
        wordScanPairs rest word word_start_time
      else
        (word, word_start_time) :: wordScanPairs rest [] none
    else
      if word.isEmpty then
        wordScanPairs rest [char] (some time)
      else
        wordScanPairs rest (word ++ [char]) word_start_time

/-- A character paired with its start time that is not the space character. -/
def notSpace (p : Char × Int) : Bool := p.1 ≠ ' '

/-- Modelled on the spec sentence for C6: the words are the maximal runs of
non-space characters of the (character, adjusted start time) sequence, and the
start time recorded for each word is the adjusted start time of its first
character. -/
def specWordTimes : List (Char × Int) → List (List Char × Option Int)
  | [] => []
  | (c, t) :: rest =>
    if c = ' ' then specWordTimes rest
    else
      (c :: (rest.takeWhile notSpace).map Prod.fst, some t) ::
        specWordTimes (rest.dropWhile notSpace)
termination_by l => l.length
decreasing_by
  all_goals simp_wf
  all_goals
    first
    | omega
    | (have h : (List.dropWhile notSpace rest).length ≤ rest.length :=
        (List.dropWhile_sublist notSpace).length_le
       omega)

/-- An opaque stand-in for a JSON value appearing in the request body. -/
structure JsonVal where
  raw : String
deriving DecidableEq

/-- The observable outcome of the `chat` endpoint before any stream item is
produced: either a client error, or a `StreamingResponse` has been returned
(streaming has begun) carrying whatever `body.get('messages')` produced. -/
inductive ChatOutcome where
  | clientError
  | streamingResponse (messages : Option JsonVal)
deriving DecidableEq

/-- The request-handling skeleton of the `chat` endpoint: the body is read,
`messages = body.get('messages')` (which is `None` when the field is absent,
with no validation), and a `StreamingResponse` is returned unconditionally;
the model stream is only opened lazily inside the already-returned stream. -/
def chat (body : List (String × JsonVal)) : ChatOutcome :=
  ChatOutcome.streamingResponse (body.lookup "messages")

lemma textChunkerAux_chunk_concat_space (frags : List (List Char)) :
    ∀ (buffer chunk : List Char), chunk ∈ textChunkerAux buffer frags →
      ∃ s, chunk = s ++ [' '] := by
  induction frags with
  | nil =>
    intro buffer chunk h
    simp only [textChunkerAux] at h
    split at h
    · simp at h
    · simp only [List.mem_singleton] at h
      exact ⟨buffer, h⟩
  | cons text rest ih =>
    intro buffer chunk h
    simp only [textChunkerAux] at h
    split at h
    · rcases List.mem_cons.mp h with h1 | h1
      · exact ⟨buffer, h1⟩
      · exact ih text chunk h1
    · split at h
      · rename_i c cs
        split at h
        · rcases List.mem_cons.mp h with h1 | h1
          · refine ⟨buffer ++ [c], ?_⟩
            rw [h1, List.append_assoc]
            rfl
          · exact ih cs chunk h1
        · exact ih (buffer ++ (c :: cs)) chunk h
      · exact ih buffer chunk h

lemma textChunkerAux_dropLast_join (frags : List (List Char)) :
    ∀ buffer : List Char,
      ((textChunkerAux buffer frags).map List.dropLast).flatten = buffer ++ frags.flatten := by
  induction frags with
  | nil =>
    intro buffer
    simp only [textChunkerAux]
    split
    · rename_i hb
      simp_all [List.isEmpty_iff]
    · simp
  | cons text rest ih =>
    intro buffer
    simp only [textChunkerAux]
    split
    · simp [ih text, List.append_assoc]
    · split
      · rename_i c cs
        split
        · have hdrop : (buffer ++ [c, ' ']).dropLast = buffer ++ [c] := by
            rw [show buffer ++ [c, ' '] = (buffer ++ [c]) ++ [' '] by
              rw [List.append_assoc]; rfl]
            simp
          simp [ih cs, hdrop, List.append_assoc]
        · rw [ih (buffer ++ (c :: cs))]
          simp
      · rw [ih buffer]
        simp

/-- C1: concatenating all chunks emitted by the chunker, each with its single
added trailing space removed, yields exactly the concatenation of the input
fragments in order. -/
theorem text_chunker_concat_roundtrip (fragments : List (List Char)) :
    ((text_chunker fragments).map stripTrailingSpace).flatten = fragments.flatten := by
  have hmap : (text_chunker fragments).map stripTrailingSpace
      = (text_chunker fragments).map List.dropLast := by
    apply List.map_congr_left
    intro c hc
    obtain ⟨s, rfl⟩ := textChunkerAux_chunk_concat_space fragments [] c hc
    simp [stripTrailingSpace]
  rw [hmap]
  simpa using textChunkerAux_dropLast_join fragments []

/-- C10: every chunk the chunker emits is non-empty and ends with a space
character, because every emit path appends a single space. -/
theorem text_chunker_chunks_end_with_space (fragments : List (List Char))
    (chunk : List Char) (h : chunk ∈ text_chunker fragments) :
    chunk ≠ [] ∧ chunk.getLast? = some ' ' := by
  obtain ⟨s, rfl⟩ := textChunkerAux_chunk_concat_space fragments [] chunk h
  exact ⟨by simp, by simp⟩

/-- Witness for C10 at the concrete input [\"hi\"]. -/
theorem text_chunker_chunks_end_with_space_witness :
    (['h', 'i', ' '] : List Char) ≠ [] ∧
      (['h', 'i', ' '] : List Char).getLast? = some ' ' :=
  text_chunker_chunks_end_with_space [['h', 'i']] ['h', 'i', ' '] (by decide)

/-- C3 counterexample: feeding the non-empty string \".a\" as a single fragment
yields two chunks [\". \", \"a \"], not the single chunk \".a \". -/
theorem text_chunker_single_fragment_counterexample :
    text_chunker [['.', 'a']] ≠ [['.', 'a', ' ']] := by decide

/-- C3 amended: feeding a non-empty string as one single fragment yields
exactly one chunk equal to the string followed by a space, provided the string
does not start with a splitter character or consists of that single character
only. -/
theorem text_chunker_single_fragment_amended (c : Char) (cs : List Char)
    (h : splitters.contains c = false ∨ cs = []) :
    text_chunker [c :: cs] = [(c :: cs) ++ [' ']] := by
  rcases h with h | rfl
  · have hmem : c ∉ splitters := by simpa using h
    simp [text_chunker, textChunkerAux, endsWithSplitter, hmem]
  · by_cases hc : splitters.contains c
    · simp [text_chunker, textChunkerAux, endsWithSplitter, hc]
    · simp [text_chunker, textChunkerAux, endsWithSplitter, hc]

/-- Witness for the amended C3 at the concrete input \"hi\". -/
theorem text_chunker_single_fragment_amended_witness :
    text_chunker [['h', 'i']] = [['h', 'i'] ++ [' ']] :=
  text_chunker_single_fragment_amended 'h' ['i'] (Or.inl (by decide))

/-- C7: when the very first fragment starts with a splitter character (the
buffer being empty), the chunker emits a chunk of just that splitter followed
by a space and continues with the remainder of the fragment as the new
buffer. -/
theorem text_chunker_initial_splitter (c : Char) (cs : List Char)
    (rest : List (List Char)) (h : splitters.contains c = true) :
    text_chunker ((c :: cs) :: rest) = [c, ' '] :: textChunkerAux cs rest := by
  have hmem : c ∈ splitters := by simpa using h
  simp [text_chunker, textChunkerAux, endsWithSplitter, hmem]

/-- Witness for C7 at the concrete input [\".a\"]. -/
theorem text_chunker_initial_splitter_witness :
    text_chunker [['.', 'a']] = ['.', ' '] :: textChunkerAux ['a'] [] :=
  text_chunker_initial_splitter '.' ['a'] [] (by decide)

/-- C4: for the alignment record with chars "hi there", start times
0,100,...,700, no charDurationsMs, and cumulative run time 0, the
reconstructor returns words ["hi","there"], start times [0, 300], and new
cumulative run time 800. -/
theorem calculate_word_start_times_hi_there :
    calculate_word_start_times
      ⟨['h', 'i', ' ', 't', 'h', 'e', 'r', 'e'],
        [0, 100, 200, 300, 400, 500, 600, 700], none⟩ 0 =
      ([['h', 'i'], ['t', 'h', 'e', 'r', 'e']], [some 0, some 300], 800) := by
  decide

/-- C2 counterexample: for an alignment record with no charDurationsMs and
exactly one character start time, the total duration added to the cumulative
run time is 100 (namely `last - first + 100 = 0 + 100`), not 0 as claimed. -/
theorem calculate_word_start_times_single_time_counterexample :
    (calculate_word_start_times ⟨['a'], [0], none⟩ 0).2.2 = 100 ∧
      (calculate_word_start_times ⟨['a'], [0], none⟩ 0).2.2 ≠ 0 := by
  decide

/-- C2 amended: the chunk's total duration is the sum of charDurationsMs when
present and non-empty; otherwise last adjusted start time minus first plus 100
when there is at least one character start time (so 100 when there is exactly
one); otherwise 0.  The cumulative run time advances by exactly this amount. -/
theorem calculate_word_start_times_total_duration (a : AlignmentChunk) (cum : Int) :
    (calculate_word_start_times a cum).2.2 = cum + claimedChunkDuration a cum := by
  unfold calculate_word_start_times claimedChunkDuration totalDuration fallbackDuration
  cases a.charDurationsMs with
  | none =>
    by_cases h : (a.charStartTimesMs.map (fun t => t + cum)).isEmpty <;>
      simp_all [List.isEmpty_iff]
  | some ds =>
    by_cases hds : ds.isEmpty
    · by_cases h : (a.charStartTimesMs.map (fun t => t + cum)).isEmpty <;>
        simp_all [List.isEmpty_iff]
    · simp_all [List.isEmpty_iff]

lemma zip_take_min (l1 : List Char) (l2 : List Int) :
    (l1.take (min l1.length l2.length)).zip (l2.take (min l1.length l2.length)) =
      l1.zip l2 := by
  induction l1 generalizing l2 with
  | nil => simp
  | cons a as ih =>
    cases l2 with
    | nil => simp
    | cons b bs =>
      simp [Nat.succ_min_succ, ih bs]

/-- C9: the words and start times produced by the reconstructor depend only on
the first min(len chars, len charStartTimesMs) characters: Python's `zip`
silently truncates to the shorter sequence, and the trailing characters (or
trailing start times) never contribute to any word, its start time, or the
chars-scan, and no error is raised (the function is total on such records). -/
theorem calculate_word_start_times_zip_truncates (a : AlignmentChunk) (cum : Int) :
    (calculate_word_start_times a cum).1 =
      (calculate_word_start_times
        ⟨a.chars.take (min a.chars.length a.charStartTimesMs.length),
          a.charStartTimesMs.take (min a.chars.length a.charStartTimesMs.length),
          a.charDurationsMs⟩ cum).1 ∧
    (calculate_word_start_times a cum).2.1 =
      (calculate_word_start_times
        ⟨a.chars.take (min a.chars.length a.charStartTimesMs.length),
          a.charStartTimesMs.take (min a.chars.length a.charStartTimesMs.length),
          a.charDurationsMs⟩ cum).2.1 := by
  have hzip :
      (a.chars.take (min a.chars.length a.charStartTimesMs.length)).zip
        ((a.charStartTimesMs.take (min a.chars.length a.charStartTimesMs.length)).map
          (fun t => t + cum)) =
        a.chars.zip (a.charStartTimesMs.map (fun t => t + cum)) := by
    rw [List.map_take]
    rw [show min a.chars.length a.charStartTimesMs.length =
      min a.chars.length (a.charStartTimesMs.map (fun t => t + cum)).length by
        simp]
    exact zip_take_min a.chars (a.charStartTimesMs.map (fun t => t + cum))
  constructor <;>
    simp only [calculate_word_start_times, hzip]

lemma head_le_getLast (t : Int) (ts : List Int)
    (h : (t :: ts).Pairwise (fun x y => x ≤ y)) :
    t ≤ ((t :: ts).getLast?).getD 0 := by
  induction ts generalizing t with
  | nil => simp
  | cons u us ih =>
    rcases List.pairwise_cons.mp h with ⟨h1, h2⟩
    have hu : t ≤ u := h1 u (by simp)
    have := ih u h2
    rw [List.getLast?_cons_cons]
    exact le_trans hu this

lemma fallbackDuration_nonneg (l : List Int)
    (h : l.Pairwise (fun x y => x ≤ y)) : 0 ≤ fallbackDuration l := by
  cases l with
  | nil => simp [fallbackDuration]
  | cons t ts =>
    have := head_le_getLast t ts h
    simp only [fallbackDuration, List.isEmpty_cons, if_false, List.head?_cons,
      Option.getD_some]
    simp only [List.head?_cons, Option.getD_some] at this ⊢
    omega

lemma totalDuration_nonneg (ds : Option (List Int)) (l : List Int)
    (hd : ∀ d ∈ ds.getD [], 0 ≤ d)
    (hl : l.Pairwise (fun x y => x ≤ y)) :
    0 ≤ totalDuration ds l := by
  cases ds with
  | none => exact fallbackDuration_nonneg l hl
  | some d =>
    simp only [totalDuration]
    split
    · exact fallbackDuration_nonneg l hl
    · exact List.sum_nonneg (by simpa using hd)

lemma cum_le_calc_step (a : AlignmentChunk) (cum : Int) (h : validAlignment a) :
    cum ≤ (calculate_word_start_times a cum).2.2 := by
  obtain ⟨hd, hs⟩ := h
  have hmap : (a.charStartTimesMs.map (fun t => t + cum)).Pairwise
      (fun x y => x ≤ y) := by
    rw [List.pairwise_map]
    exact hs.imp (by omega)
  have := totalDuration_nonneg a.charDurationsMs
    (a.charStartTimesMs.map (fun t => t + cum)) hd hmap
  simp only [calculate_word_start_times]
  omega

lemma cum_le_foldl (records : List AlignmentChunk)
    (hr : ∀ r ∈ records, validAlignment r) :
    ∀ cum : Int,
      cum ≤ records.foldl (fun c r => (calculate_word_start_times r c).2.2) cum := by
  induction records with
  | nil => intro cum; simp
  | cons a rest ih =>
    intro cum
    have h1 : cum ≤ (calculate_word_start_times a cum).2.2 :=
      cum_le_calc_step a cum (hr a (by simp))
    have h2 := ih (fun r hr2 => hr r (List.mem_cons_of_mem a hr2))
      ((calculate_word_start_times a cum).2.2)
    simpa using le_trans h1 h2

/-- C5: for every valid alignment record (non-negative durations,
non-decreasing start times) and every cumulative run time, the returned
cumulative run time is at least the one passed in; hence over any ordered
sequence of valid records the running cumulative time is non-decreasing. -/
theorem cumulative_run_time_monotone (a : AlignmentChunk) (cum : Int)
    (records : List AlignmentChunk) (ha : validAlignment a)
    (hr : ∀ r ∈ records, validAlignment r) :
    cum ≤ (calculate_word_start_times a cum).2.2 ∧
      cum ≤ records.foldl (fun c r => (calculate_word_start_times r c).2.2) cum :=
  ⟨cum_le_calc_step a cum ha, cum_le_foldl records hr cum⟩

/-- Witness for C5 at a concrete valid record and sequence. -/
theorem cumulative_run_time_monotone_witness :
    (0 : Int) ≤ (calculate_word_start_times ⟨['a'], [0], none⟩ 0).2.2 ∧
      (0 : Int) ≤ [(⟨['a'], [0], none⟩ : AlignmentChunk)].foldl
        (fun c r => (calculate_word_start_times r c).2.2) 0 :=
  cumulative_run_time_monotone ⟨['a'], [0], none⟩ 0
    [⟨['a'], [0], none⟩] (by decide) (by decide)

lemma wordScan_eq_pairs (l : List (Char × Int)) :
    ∀ (word : List Char) (wst : Option Int),
      wordScan l word wst =
        ((wordScanPairs l word wst).map Prod.fst,
          (wordScanPairs l word wst).map Prod.snd) := by
  induction l with
  | nil =>
    intro word wst
    by_cases h : word.isEmpty <;> simp [wordScan, wordScanPairs, h]
  | cons p rest ih =>
    intro word wst
    obtain ⟨char, time⟩ := p
    by_cases hc : char = ' '
    · by_cases hw : word.isEmpty <;>
        simp [wordScan, wordScanPairs, hc, hw, ih]
    · by_cases hw : word.isEmpty <;>
        simp [wordScan, wordScanPairs, hc, hw, ih]

lemma wordScanPairs_spec (l : List (Char × Int)) :
    wordScanPairs l [] none = specWordTimes l ∧
      ∀ (word : List Char) (wst : Option Int), ¬word.isEmpty →
        wordScanPairs l word wst =
          (word ++ (l.takeWhile notSpace).map Prod.fst, wst) ::
            specWordTimes (l.dropWhile notSpace) := by
  induction l with
  | nil =>
    refine ⟨by simp [wordScanPairs, specWordTimes], ?_⟩
    intro word wst hw
    simp [wordScanPairs, specWordTimes, hw]
  | cons p rest ih =>
    obtain ⟨c, t⟩ := p
    have hns : notSpace (c, t) = !decide (c = ' ') := by
      simp [notSpace]
    constructor
    · by_cases hc : c = ' '
      · simp [wordScanPairs, specWordTimes, hc, ih.1]
      · rw [show wordScanPairs ((c, t) :: rest) [] none =
            wordScanPairs rest [c] (some t) by simp [wordScanPairs, hc]]
        rw [ih.2 [c] (some t) (by simp)]
        simp [specWordTimes, hc]
    · intro word wst hw
      by_cases hc : c = ' '
      · rw [show wordScanPairs ((c, t) :: rest) word wst =
            (word, wst) :: wordScanPairs rest [] none by
              simp [wordScanPairs, hc, hw]]
        rw [ih.1, List.takeWhile_cons, List.dropWhile_cons, hns, hc]
        simp [specWordTimes]
      · rw [show wordScanPairs ((c, t) :: rest) word wst =
            wordScanPairs rest (word ++ [c]) wst by simp [wordScanPairs, hc, hw]]
        rw [ih.2 (word ++ [c]) wst (by simp)]
        rw [List.takeWhile_cons, List.dropWhile_cons, hns]
        simp [hc]

/-- C6: the reconstructor returns word and start-time sequences of equal
length, and the (word, start time) pairs are exactly the maximal non-space
runs of the zipped (character, adjusted start time) sequence, each word paired
with the cumulative-offset start time of its first character. -/
theorem words_and_start_times_spec (a : AlignmentChunk) (cum : Int) :
    (calculate_word_start_times a cum).1.length =
      (calculate_word_start_times a cum).2.1.length ∧
    (calculate_word_start_times a cum).1.zip (calculate_word_start_times a cum).2.1 =
      specWordTimes (a.chars.zip (a.charStartTimesMs.map (fun t => t + cum))) := by
  have hpairs := wordScan_eq_pairs
    (a.chars.zip (a.charStartTimesMs.map (fun t => t + cum))) [] none
  have hspec := (wordScanPairs_spec
    (a.chars.zip (a.charStartTimesMs.map (fun t => t + cum)))).1
  constructor
  · simp [calculate_word_start_times, hpairs]
  · simp only [calculate_word_start_times, hpairs]
    rw [List.zip_map', ← hspec]
    simp

/-- C8 is a code bug: for a JSON body lacking the `messages` field the
endpoint performs no validation and returns a streaming response carrying
`messages = None`; no request lacking the field (nor any request at all) is
answered with a client error before streaming begins. -/
theorem chat_missing_messages_no_client_error :
    chat [] = ChatOutcome.streamingResponse none ∧
      ∀ body : List (String × JsonVal), chat body ≠ ChatOutcome.clientError := by
  refine ⟨rfl, ?_⟩
  intro body h
  simp [chat] at h
